import Mathlib

/-!
Verification of the per-project domain classifier and regex assembler
(src/main.py) against its specification.

The program is a batch job: for each project it loads the list of domain
names, runs a two-pass postfix-frequency classifier, assembles one regex
string, and collects one Rule row per project.  Python dicts are modelled
as insertion-ordered association lists (`List (String × Nat)`), the
`InvalidName` exception and `KeyError` as `Option`.
-/

namespace SfTest

/-- Threshold constant TOO_MANY from src/main.py. -/
def TOO_MANY : Nat := 50

/-- The character-class literal DOMAIN_NAME_CHARS from src/main.py
(the Python source "[a-zA-Z0-9\-]" keeps the backslash verbatim). -/
def DOMAIN_NAME_CHARS : String := "[a-zA-Z0-9\\-]"

/-- Characters strictly after the first dot of a character list, `none` when
no dot occurs: the char-level content of `domain.find(".")` followed by the
slice `domain[pos + 1:]` in get_postfix. -/
def tailAfterDot : List Char → Option (List Char)
  | [] => none
  | c :: cs => if c = '.' then some cs else tailAfterDot cs

/-- Embeds get_postfix (src/main.py lines 88-92): the substring after the
first ".", raising InvalidName — modelled as `none` — when the name has
no dot. -/
def getPostfix (domain : String) : Option String :=
  (tailAfterDot domain.data).map String.mk

/-- First binding of a key in an insertion-ordered association list
(the model of a Python dict built by the classifier). -/
def lookup : List (String × Nat) → String → Option Nat
  | [], _ => none
  | (k, v) :: rest, key => if k = key then some v else lookup rest key

/-- `key in dict` test of pass 2. -/
def hasKey (m : List (String × Nat)) (k : String) : Bool :=
  (lookup m k).isSome

/-- Dict assignment `m[k] = v`: an existing key keeps its position and gets
the new value, a new key is appended at the end (Python insertion order). -/
def setKey : List (String × Nat) → String → Nat → List (String × Nat)
  | [], k, v => [(k, v)]
  | (k2, v2) :: rest, k, v =>
    if k2 = k then (k, v) :: rest else (k2, v2) :: setKey rest k v

/-- Dict increment `m[k] += 1`; `none` models the KeyError a missing key
would raise. -/
def incKey : List (String × Nat) → String → Option (List (String × Nat))
  | [], _ => none
  | (k2, v2) :: rest, k =>
    if k2 = k then some ((k2, v2 + 1) :: rest)
    else (incKey rest k).map (fun m => (k2, v2) :: m)

/-- Pass 1 of generate_regex (src/main.py lines 69-71): seed the postfix of
every name with count 0; an InvalidName aborts the pass. -/
def pass1 (m : List (String × Nat)) : List String → Option (List (String × Nat))
  | [] => some m
  | name :: rest =>
    match getPostfix name with
    | none => none
    | some p => pass1 (setKey m p 0) rest

/-- Pass 2 of generate_regex (src/main.py lines 73-78): a name that is a key
of the count map is appended to the exceptions list, any other name
increments the count of its postfix. -/
def pass2 (m : List (String × Nat)) :
    List String → Option (List (String × Nat) × List String)
  | [] => some (m, [])
  | name :: rest =>
    if hasKey m name then
      (pass2 m rest).map (fun r => (r.1, name :: r.2))
    else
      match getPostfix name with
      | none => none
      | some p =>
        match incKey m p with
        | none => none
        | some m2 => pass2 m2 rest

/-- One garbage fragment of _generate_regex: the f-string
`f"{DOMAIN_NAME_CHARS}+\.{postfix}"`.  The source line
`postfix.replace(".", "\.")` discards its result (Python strings are
immutable), so the postfix is appended unescaped. -/
def garbageFragment (p : String) : String :=
  DOMAIN_NAME_CHARS ++ "+\\." ++ p

/-- One negative-lookahead fragment of _generate_regex: the f-string
`f"(?!^{name}$)"`.  The source line `name.replace(".", "\.")` likewise
discards its result, so the name is inserted unescaped. -/
def lookaheadFragment (name : String) : String :=
  "(?!^" ++ name ++ "$)"

/-- The garbage list of _generate_regex: one fragment for every key whose
count strictly exceeds TOO_MANY, in dict order. -/
def garbageList (pc : List (String × Nat)) : List String :=
  (pc.filter (fun kv => TOO_MANY < kv.2)).map (fun kv => garbageFragment kv.1)

/-- The separator joining garbage fragments. -/
def sepBar : String := "|"

/-- Embeds _generate_regex (src/main.py lines 43-60): the concatenated
lookahead fragments followed by the "|"-joined garbage alternation. -/
def underscoreGenerateRegex (pc : List (String × Nat)) (exc : List String) : String :=
  (exc.foldl (fun acc name => acc ++ lookaheadFragment name) "") ++
    String.intercalate sepBar (garbageList pc)

/-- Embeds generate_regex (src/main.py lines 63-80) as a function of the
project's domain-name list: pass 1, pass 2, then the assembler.  `none`
models the InvalidName exception propagating out. -/
def generate_regex (names : List String) : Option String :=
  match pass1 [] names with
  | none => none
  | some pc =>
    match pass2 pc names with
    | none => none
    | some r => some (underscoreGenerateRegex r.1 r.2)

/-- A row of the rules table. -/
structure Rule where
  project_id : Int
  regexp : String
deriving DecidableEq

/-- The ordered list of domain names of one project: the query
`Domain.name where Domain.project_id == project_id` over the rows of the
domains table, modelled as (project_id, name) pairs in table order. -/
def domainsOf (rows : List (Int × String)) (pid : Int) : List String :=
  (rows.filter (fun r => r.1 == pid)).map Prod.snd

/-- `select distinct project_id`: first occurrence of each project id,
`seen` accumulating the ids already emitted. -/
def distinctAux (seen : List Int) : List Int → List Int
  | [] => []
  | p :: rest =>
    if p ∈ seen then distinctAux seen rest
    else p :: distinctAux (p :: seen) rest

/-- The distinct project ids of the domains table. -/
def distinctPids (rows : List (Int × String)) : List Int :=
  distinctAux [] (rows.map Prod.fst)

/-- The driver loop body (src/main.py lines 98-103): one Rule per project
id, in order; `none` models an InvalidName aborting the whole run. -/
def driverLoop (rows : List (Int × String)) : List Int → Option (List Rule)
  | [] => some []
  | pid :: rest =>
    match generate_regex (domainsOf rows pid) with
    | none => none
    | some re => (driverLoop rows rest).map (fun rs => Rule.mk pid re :: rs)

/-- The module-level driver: the rules batch built from the domains table. -/
def driver (rows : List (Int × String)) : Option (List Rule) :=
  driverLoop rows (distinctPids rows)

/-! ### Basic lemmas about the postfix scanner -/

theorem tailAfterDot_eq_none_iff (l : List Char) : tailAfterDot l = none ↔ '.' ∉ l := by
  induction l with
  | nil => simp [tailAfterDot]
  | cons c cs ih =>
    by_cases hc : c = '.'
    · subst hc; simp [tailAfterDot]
    · simp [tailAfterDot, hc, ih, Ne.symm hc]

theorem tailAfterDot_eq_some (l : List Char) (h : '.' ∈ l) :
    ∃ p q, l = p ++ '.' :: q ∧ '.' ∉ p ∧ tailAfterDot l = some q := by
  induction l with
  | nil => simp at h
  | cons c cs ih =>
    by_cases hc : c = '.'
    · subst hc
      exact ⟨[], cs, rfl, by simp, by simp [tailAfterDot]⟩
    · have h2 : '.' ∈ cs := by
        rcases List.mem_cons.mp h with h1 | h1
        · exact absurd h1.symm hc
        · exact h1
      obtain ⟨p, q, he, hnp, ht⟩ := ih h2
      refine ⟨c :: p, q, by rw [he]; rfl, ?_, by simpa [tailAfterDot, hc] using ht⟩
      simp [List.mem_cons, hnp, Ne.symm hc]

theorem tailAfterDot_length_lt (l q : List Char) (h : tailAfterDot l = some q) :
    q.length < l.length := by
  induction l generalizing q with
  | nil => simp [tailAfterDot] at h
  | cons c cs ih =>
    by_cases hc : c = '.'
    · subst hc
      simp [tailAfterDot] at h
      subst h
      simp
    · simp only [tailAfterDot, if_neg hc] at h
      have := ih q h
      simp only [List.length_cons]
      omega

/-- C4: get_postfix fails with InvalidName (modelled as `none`) exactly on
names without a dot, and on a name with a dot it returns exactly the
substring after the first dot: the name splits as a dot-free part, the
first dot, and the returned tail. -/
theorem getPostfix_spec (n : String) :
    (getPostfix n = none ↔ '.' ∉ n.data) ∧
    ('.' ∈ n.data → ∃ p q : List Char,
      n.data = p ++ '.' :: q ∧ '.' ∉ p ∧ getPostfix n = some (String.mk q)) := by
  have h1 : getPostfix n = none ↔ tailAfterDot n.data = none := by
    unfold getPostfix
    cases tailAfterDot n.data <;> simp
  constructor
  · rw [h1, tailAfterDot_eq_none_iff]
  · intro hdot
    obtain ⟨p, q, he, hnp, ht⟩ := tailAfterDot_eq_some n.data hdot
    exact ⟨p, q, he, hnp, by simp [getPostfix, ht]⟩

/-- Witness for C4 at the concrete name "a.b". -/
theorem getPostfix_spec_witness :
    ∃ p q : List Char, ("a.b" : String).data = p ++ '.' :: q ∧ '.' ∉ p ∧
      getPostfix ("a.b") = some (String.mk q) :=
  (getPostfix_spec ("a.b")).2 (by decide)

/-! ### The assembler -/

theorem garbageFragment_inj (k1 k2 : String) (h : garbageFragment k1 = garbageFragment k2) :
    k1 = k2 := by
  have h2 := congrArg String.data h
  simp only [garbageFragment, String.data_append] at h2
  exact String.ext (List.append_cancel_left h2)

/-- C5: a fragment for postfix k is in the garbage alternation iff the count
map holds k with a count strictly greater than TOO_MANY; in particular a
count of exactly 50 contributes nothing. -/
theorem garbage_mem_iff (pc : List (String × Nat)) (k : String) :
    garbageFragment k ∈ garbageList pc ↔ ∃ v, (k, v) ∈ pc ∧ TOO_MANY < v := by
  unfold garbageList
  rw [List.mem_map]
  constructor
  · rintro ⟨kv, hmem, heq⟩
    rw [List.mem_filter] at hmem
    have hk := garbageFragment_inj kv.1 k heq
    refine ⟨kv.2, ?_, by simpa using hmem.2⟩
    have he : (k, kv.2) = kv := by rw [← hk]
    rw [he]
    exact hmem.1
  · rintro ⟨v, hmem, hv⟩
    exact ⟨(k, v), List.mem_filter.mpr ⟨hmem, by simpa using hv⟩, rfl⟩

/-- C2 (code bug): the source calls postfix.replace and name.replace but
discards their results, so dots are NOT escaped in the emitted pattern:
at the spec's own inputs the assembler returns the unescaped strings, which
differ from the escaped strings the spec expects. -/
theorem dots_not_escaped :
    underscoreGenerateRegex [("a.com", 51), ("b.com", 10)] [] = "[a-zA-Z0-9\\-]+\\.a.com" ∧
    underscoreGenerateRegex [("a.com", 51), ("b.com", 10)] ["x.a.com"] =
      "(?!^x.a.com$)[a-zA-Z0-9\\-]+\\.a.com" ∧
    "[a-zA-Z0-9\\-]+\\.a.com" ≠ "[a-zA-Z0-9\\-]+\\.a\\.com" ∧
    "(?!^x.a.com$)[a-zA-Z0-9\\-]+\\.a.com" ≠ "(?!^x\\.a\\.com$)[a-zA-Z0-9\\-]+\\.a\\.com" := by
  decide

/-- C6: an empty domain list yields the empty count map, empty exceptions
and the empty regex; and whenever no count exceeds TOO_MANY and the
exceptions list is empty, the assembler returns the empty string. -/
theorem empty_domains_empty_regex (pc : List (String × Nat)) (exc : List String)
    (hc : ∀ kv ∈ pc, kv.2 ≤ TOO_MANY) (he : exc = []) :
    (pass1 [] ([] : List String) = some [] ∧
     pass2 [] ([] : List String) = some ([], []) ∧
     generate_regex [] = some ("")) ∧
    underscoreGenerateRegex pc exc = "" := by
  refine ⟨⟨rfl, rfl, rfl⟩, ?_⟩
  subst he
  have hg : garbageList pc = [] := by
    unfold garbageList
    have : pc.filter (fun kv => TOO_MANY < kv.2) = [] := by
      rw [List.filter_eq_nil_iff]
      intro kv hkv
      simpa using Nat.not_lt.mpr (hc kv hkv)
    rw [this]
    rfl
  unfold underscoreGenerateRegex
  rw [hg]
  decide

/-- Witness for C6 at a count map holding exactly the boundary count 50. -/
theorem empty_domains_empty_regex_witness :
    ((pass1 [] ([] : List String) = some [] ∧
      pass2 [] ([] : List String) = some ([], []) ∧
      generate_regex [] = some ("")) ∧
     underscoreGenerateRegex [("a.com", 50)] [] = "") :=
  empty_domains_empty_regex [("a.com", 50)] [] (by decide) rfl

/-- C8: the classifier plus assembler is a pure function of the domain-name
list, so two runs on the same unchanged list give byte-identical output. -/
theorem generate_regex_deterministic (n1 n2 : List String) (h : n1 = n2) :
    generate_regex n1 = generate_regex n2 := by rw [h]

/-- Witness for C8 at a concrete list. -/
theorem generate_regex_deterministic_witness :
    generate_regex ["a.com"] = generate_regex ["a.com"] :=
  generate_regex_deterministic ["a.com"] ["a.com"] rfl

theorem tailAfterDot_append_dot (s : List Char) (h : '.' ∉ s) :
    tailAfterDot (s ++ ['.']) = some [] := by
  induction s with
  | nil => simp [tailAfterDot]
  | cons c cs ih =>
    have h1 : ¬ c = '.' := fun e => h (e ▸ List.mem_cons_self c cs)
    have h2 : '.' ∉ cs := fun m => h (List.mem_cons_of_mem c m)
    simp [tailAfterDot, h1, ih h2]

/-- 51 names of shape "bN." whose shared postfix is the empty string. -/
def testNamesTrailingDot : List String :=
  (List.range 51).map (fun i => "b" ++ toString i ++ ".")

/-- C10: a name whose only dot is final has the empty string as postfix; the
empty postfix is counted like any key, and once its count exceeds 50 the
garbage fragment is the character class followed by a bare escaped dot. -/
theorem trailing_dot_empty_tail (s : List Char) (h : '.' ∉ s) :
    getPostfix (String.mk (s ++ ['.'])) = some ("") ∧
    garbageFragment ("") = "[a-zA-Z0-9\\-]+\\." ∧
    generate_regex testNamesTrailingDot = some ("[a-zA-Z0-9\\-]+\\.") := by
  refine ⟨?_, by decide, by decide⟩
  unfold getPostfix
  rw [show (String.mk (s ++ ['.'])).data = s ++ ['.'] from rfl, tailAfterDot_append_dot s h]
  decide

/-- Witness for C10 at the concrete name "a.". -/
theorem trailing_dot_empty_tail_witness :
    getPostfix (String.mk (['a'] ++ ['.'])) = some ("") ∧
    garbageFragment ("") = "[a-zA-Z0-9\\-]+\\." ∧
    generate_regex testNamesTrailingDot = some ("[a-zA-Z0-9\\-]+\\.") :=
  trailing_dot_empty_tail ['a'] (by decide)

/-! ### Association-list lemmas -/

theorem lookup_setKey (m : List (String × Nat)) (k : String) (v : Nat) (key : String) :
    lookup (setKey m k v) key = if k = key then some v else lookup m key := by
  induction m with
  | nil => simp [setKey, lookup]
  | cons kv rest ih =>
    obtain ⟨k2, v2⟩ := kv
    by_cases h2 : k2 = k
    · subst h2
      by_cases hk : k2 = key
      · subst hk; simp [setKey, lookup]
      · simp [setKey, lookup, hk]
    · by_cases hk : k2 = key
      · subst hk
        have hne : ¬ k = k2 := fun e => h2 e.symm
        simp [setKey, lookup, h2, hne]
      · simp [setKey, lookup, h2, hk, ih]

theorem hasKey_setKey (m : List (String × Nat)) (k : String) (v : Nat) (key : String) :
    hasKey (setKey m k v) key = true ↔ k = key ∨ hasKey m key = true := by
  rw [hasKey, lookup_setKey]
  by_cases h : k = key <;> simp [h, hasKey]

theorem mem_setKey (m : List (String × Nat)) (k : String) (v : Nat) (kv : String × Nat)
    (h : kv ∈ setKey m k v) : kv = (k, v) ∨ kv ∈ m := by
  induction m with
  | nil => simpa [setKey] using h
  | cons kv2 rest ih =>
    obtain ⟨k2, v2⟩ := kv2
    by_cases h2 : k2 = k
    · have hs : setKey ((k2, v2) :: rest) k v = (k, v) :: rest := by
        simp [setKey, h2]
      rw [hs, List.mem_cons] at h
      rcases h with h | h
      · exact Or.inl h
      · exact Or.inr (List.mem_cons_of_mem _ h)
    · have hs : setKey ((k2, v2) :: rest) k v = (k2, v2) :: setKey rest k v := by
        simp [setKey, h2]
      rw [hs, List.mem_cons] at h
      rcases h with h | h
      · exact Or.inr (h ▸ List.mem_cons_self _ _)
      · rcases ih h with h3 | h3
        · exact Or.inl h3
        · exact Or.inr (List.mem_cons_of_mem _ h3)

theorem lookup_eq_some_mem (m : List (String × Nat)) (key : String) (v : Nat)
    (h : lookup m key = some v) : (key, v) ∈ m := by
  induction m with
  | nil => simp [lookup] at h
  | cons kv rest ih =>
    obtain ⟨k2, v2⟩ := kv
    by_cases h2 : k2 = key
    · have hl : lookup ((k2, v2) :: rest) key = some v2 := by
        simp [lookup, h2]
      rw [hl, Option.some.injEq] at h
      subst h
      subst h2
      exact List.mem_cons_self _ _
    · have hl : lookup ((k2, v2) :: rest) key = lookup rest key := by
        simp [lookup, h2]
      rw [hl] at h
      exact List.mem_cons_of_mem _ (ih h)

theorem incKey_lookup (m : List (String × Nat)) (k : String) (m2 : List (String × Nat))
    (h : incKey m k = some m2) (key : String) :
    lookup m2 key = if k = key then (lookup m key).map (fun v => v + 1) else lookup m key := by
  induction m generalizing m2 with
  | nil => simp [incKey] at h
  | cons kv rest ih =>
    obtain ⟨k2, v2⟩ := kv
    by_cases h2 : k2 = k
    · have hi : incKey ((k2, v2) :: rest) k = some ((k2, v2 + 1) :: rest) := by
        simp [incKey, h2]
      rw [hi, Option.some.injEq] at h
      subst h
      by_cases hk : k = key
      · subst hk
        simp [lookup, h2]
      · have hne : ¬ k2 = key := fun e => hk (h2.symm.trans e)
        simp [lookup, hne, hk]
    · have hi : incKey ((k2, v2) :: rest) k =
          (incKey rest k).map (fun m => (k2, v2) :: m) := by
        simp [incKey, h2]
      rw [hi] at h
      obtain ⟨m3, hm3, hmap⟩ := Option.map_eq_some'.mp h
      subst hmap
      by_cases hk : k2 = key
      · subst hk
        have hne : ¬ k = k2 := fun e => h2 e.symm
        simp [lookup, hne]
      · simp [lookup, hk, ih m3 hm3]

theorem incKey_hasKey (m : List (String × Nat)) (k : String) (m2 : List (String × Nat))
    (h : incKey m k = some m2) (key : String) : hasKey m2 key = hasKey m key := by
  rw [hasKey, hasKey, incKey_lookup m k m2 h key]
  by_cases hk : k = key
  · subst hk
    cases lookup m k <;> simp
  · simp [hk]

theorem incKey_isSome (m : List (String × Nat)) (k : String) :
    (incKey m k).isSome = hasKey m k := by
  induction m with
  | nil => simp [incKey, hasKey, lookup]
  | cons kv rest ih =>
    obtain ⟨k2, v2⟩ := kv
    by_cases h2 : k2 = k
    · subst h2; simp [incKey, hasKey, lookup]
    · have hi : incKey ((k2, v2) :: rest) k =
          (incKey rest k).map (fun m => (k2, v2) :: m) := by
        simp [incKey, h2]
      have hh : hasKey ((k2, v2) :: rest) k = hasKey rest k := by
        simp [hasKey, lookup, h2]
      rw [hi, hh, ← ih]
      cases incKey rest k <;> simp

/-- Total count held by the map: the sum of all its values. -/
def sumCounts (m : List (String × Nat)) : Nat :=
  (m.map Prod.snd).sum

theorem incKey_sumCounts (m : List (String × Nat)) (k : String) (m2 : List (String × Nat))
    (h : incKey m k = some m2) : sumCounts m2 = sumCounts m + 1 := by
  induction m generalizing m2 with
  | nil => simp [incKey] at h
  | cons kv rest ih =>
    obtain ⟨k2, v2⟩ := kv
    by_cases h2 : k2 = k
    · have hi : incKey ((k2, v2) :: rest) k = some ((k2, v2 + 1) :: rest) := by
        simp [incKey, h2]
      rw [hi, Option.some.injEq] at h
      subst h
      simp only [sumCounts, List.map_cons, List.sum_cons]
      omega
    · have hi : incKey ((k2, v2) :: rest) k =
          (incKey rest k).map (fun m => (k2, v2) :: m) := by
        simp [incKey, h2]
      rw [hi] at h
      obtain ⟨m3, hm3, hmap⟩ := Option.map_eq_some'.mp h
      subst hmap
      have hr := ih m3 hm3
      simp only [sumCounts, List.map_cons, List.sum_cons] at hr ⊢
      omega

theorem sumCounts_eq_zero (m : List (String × Nat)) (h : ∀ kv ∈ m, kv.2 = 0) :
    sumCounts m = 0 := by
  induction m with
  | nil => rfl
  | cons kv rest ih =>
    simp only [sumCounts, List.map_cons, List.sum_cons]
    rw [h kv (List.mem_cons_self _ _)]
    simpa [sumCounts] using ih (fun kv2 h2 => h kv2 (List.mem_cons_of_mem _ h2))

/-! ### Pass 1 -/

theorem pass1_hasKey (names : List String) :
    ∀ m m2, pass1 m names = some m2 →
      ∀ k, hasKey m2 k = true ↔
        (hasKey m k = true ∨ ∃ n ∈ names, getPostfix n = some k) := by
  induction names with
  | nil =>
    intro m m2 h k
    simp only [pass1, Option.some.injEq] at h
    subst h
    simp
  | cons name rest ih =>
    intro m m2 h k
    simp only [pass1] at h
    cases hp : getPostfix name with
    | none => rw [hp] at h; exact absurd h (by simp)
    | some p =>
      rw [hp] at h
      rw [ih (setKey m p 0) m2 h k, hasKey_setKey]
      constructor
      · rintro ((h1 | h1) | h1)
        · exact Or.inr ⟨name, List.mem_cons_self _ _, h1 ▸ hp⟩
        · exact Or.inl h1
        · obtain ⟨n, hn, hgp⟩ := h1
          exact Or.inr ⟨n, List.mem_cons_of_mem _ hn, hgp⟩
      · rintro (h1 | h1)
        · exact Or.inl (Or.inr h1)
        · obtain ⟨n, hn, hgp⟩ := h1
          rcases List.mem_cons.mp hn with he | he
          · subst he
            rw [hp] at hgp
            exact Or.inl (Or.inl (Option.some.inj hgp))
          · exact Or.inr ⟨n, he, hgp⟩

theorem pass1_values_zero (names : List String) :
    ∀ m m2, pass1 m names = some m2 → (∀ kv ∈ m, kv.2 = 0) →
      ∀ kv ∈ m2, kv.2 = 0 := by
  induction names with
  | nil =>
    intro m m2 h hz
    simp only [pass1, Option.some.injEq] at h
    subst h
    exact hz
  | cons name rest ih =>
    intro m m2 h hz
    simp only [pass1] at h
    cases hp : getPostfix name with
    | none => rw [hp] at h; exact absurd h (by simp)
    | some p =>
      rw [hp] at h
      refine ih (setKey m p 0) m2 h ?_
      intro kv hkv
      rcases mem_setKey m p 0 kv hkv with he | he
      · rw [he]
      · exact hz kv he

/-! ### Pass 2 -/

theorem pass2_spec (names : List String) :
    ∀ m m2 exc, pass2 m names = some (m2, exc) →
      (∀ k, hasKey m2 k = hasKey m k) ∧
      exc = names.filter (fun n => hasKey m n) ∧
      (∀ k, lookup m2 k = (lookup m k).map
        (fun v => v +
          (names.filter (fun n => !hasKey m n && (getPostfix n == some k))).length)) ∧
      sumCounts m2 = sumCounts m + (names.filter (fun n => !hasKey m n)).length := by
  induction names with
  | nil =>
    intro m m2 exc h
    simp only [pass2, Option.some.injEq, Prod.mk.injEq] at h
    obtain ⟨h1, h2⟩ := h
    subst h1
    subst h2
    refine ⟨fun k => rfl, by simp, fun k => ?_, by simp⟩
    cases lookup m k <;> simp
  | cons name rest ih =>
    intro m m2 exc h
    by_cases hK : hasKey m name
    · have hp2 : pass2 m (name :: rest) = (pass2 m rest).map (fun r => (r.1, name :: r.2)) := by
        simp [pass2, hK]
      rw [hp2] at h
      obtain ⟨r, hr, hmap⟩ := Option.map_eq_some'.mp h
      obtain ⟨m2x, excx⟩ := r
      simp only [Prod.mk.injEq] at hmap
      obtain ⟨h1, h2⟩ := hmap
      subst h1
      subst h2
      obtain ⟨ha, hb, hc, hd⟩ := ih m m2x excx hr
      refine ⟨ha, ?_, ?_, ?_⟩
      · simp [List.filter_cons, hK, hb]
      · intro k
        rw [hc k]
        simp [List.filter_cons, hK]
      · rw [hd]
        simp [List.filter_cons, hK]
    · have hKf : hasKey m name = false := Bool.eq_false_iff.mpr hK
      cases hgp : getPostfix name with
      | none =>
        rw [show pass2 m (name :: rest) = none from by simp [pass2, hK, hgp]] at h
        exact absurd h (by simp)
      | some p =>
        cases hinc : incKey m p with
        | none =>
          rw [show pass2 m (name :: rest) = none from by simp [pass2, hK, hgp, hinc]] at h
          exact absurd h (by simp)
        | some mI =>
          have hstep : pass2 m (name :: rest) = pass2 mI rest := by
            simp [pass2, hK, hgp, hinc]
          rw [hstep] at h
          obtain ⟨ha, hb, hc, hd⟩ := ih mI m2 exc h
          have hKeq : ∀ j, hasKey mI j = hasKey m j := incKey_hasKey m p mI hinc
          refine ⟨fun k => (ha k).trans (hKeq k), ?_, ?_, ?_⟩
          · have hfb : List.filter (fun n => hasKey mI n) rest =
                List.filter (fun n => hasKey m n) rest :=
              List.filter_congr (fun x _ => hKeq x)
            rw [hb, hfb]
            simp [List.filter_cons, hKf]
          · intro k
            have hck := hc k
            have hfc : List.filter (fun n => !hasKey mI n && (getPostfix n == some k)) rest =
                List.filter (fun n => !hasKey m n && (getPostfix n == some k)) rest :=
              List.filter_congr (fun x _ => by rw [hKeq x])
            rw [hfc] at hck
            have hlI := incKey_lookup m p mI hinc k
            by_cases hpk : p = k
            · subst hpk
              rw [if_pos rfl] at hlI
              rw [hck, hlI]
              simp only [List.filter_cons, hKf, hgp]
              simp
              cases lookup m p <;> simp
              omega
            · rw [if_neg hpk] at hlI
              rw [hck, hlI]
              simp only [List.filter_cons, hKf, hgp]
              simp [hpk]
          · have hfd : List.filter (fun n => !hasKey mI n) rest =
                List.filter (fun n => !hasKey m n) rest :=
              List.filter_congr (fun x _ => by rw [hKeq x])
            rw [hd, incKey_sumCounts m p mI hinc, hfd]
            simp only [List.filter_cons, hKf]
            simp
            omega

theorem length_filter_partition {α : Type} (p : α → Bool) (l : List α) :
    (l.filter p).length + (l.filter (fun a => !p a)).length = l.length := by
  induction l with
  | nil => rfl
  | cons a t ih =>
    by_cases h : p a
    · simp only [List.filter_cons, h]
      simp [← ih]
      omega
    · have hf : p a = false := Bool.eq_false_iff.mpr h
      simp only [List.filter_cons, hf]
      simp [← ih]
      omega

/-- C9: in pass 2 every name is either appended to the exceptions or
increments exactly one count by 1: the exceptions are exactly the names
that are keys of the seeded map, the counts sum to the number of the
remaining names, and together they account for every name in the list. -/
theorem exceptions_and_counts_partition (names : List String)
    (pc m2 : List (String × Nat)) (exc : List String)
    (h1 : pass1 [] names = some pc) (h2 : pass2 pc names = some (m2, exc)) :
    exc = names.filter (fun n => hasKey pc n) ∧
    sumCounts m2 = (names.filter (fun n => !hasKey pc n)).length ∧
    exc.length + sumCounts m2 = names.length := by
  obtain ⟨ha, hb, hc, hd⟩ := pass2_spec names pc m2 exc h2
  have hz : sumCounts pc = 0 :=
    sumCounts_eq_zero pc (pass1_values_zero names [] pc h1 (by simp))
  have hsum : sumCounts m2 = (names.filter (fun n => !hasKey pc n)).length := by
    rw [hd, hz]
    simp
  refine ⟨hb, hsum, ?_⟩
  rw [hb, hsum]
  exact length_filter_partition (fun n => hasKey pc n) names

/-- Witness for C9 at the list ["a.com", "b.a.com"]. -/
theorem exceptions_and_counts_partition_witness :
    (["a.com"] : List String) =
      (["a.com", "b.a.com"] : List String).filter
        (fun n => hasKey [("com", 0), ("a.com", 0)] n) ∧
    sumCounts [("com", 0), ("a.com", 1)] =
      ((["a.com", "b.a.com"] : List String).filter
        (fun n => !hasKey [("com", 0), ("a.com", 0)] n)).length ∧
    (["a.com"] : List String).length + sumCounts [("com", 0), ("a.com", 1)] =
      (["a.com", "b.a.com"] : List String).length :=
  exceptions_and_counts_partition ["a.com", "b.a.com"] [("com", 0), ("a.com", 0)]
    [("com", 0), ("a.com", 1)] ["a.com"] (by decide) (by decide)

theorem getPostfix_length_lt (m n : String) (h : getPostfix m = some n) :
    n.data.length < m.data.length := by
  unfold getPostfix at h
  obtain ⟨q, hq, hmk⟩ := Option.map_eq_some'.mp h
  have hlt := tailAfterDot_length_lt m.data q hq
  rw [← hmk]
  simpa using hlt

/-- C3: a name lands in the exceptions list iff it equals the postfix of
some other domain name of the same list. -/
theorem exception_iff_tail_of_other (names : List String)
    (pc m2 : List (String × Nat)) (exc : List String)
    (h1 : pass1 [] names = some pc) (h2 : pass2 pc names = some (m2, exc))
    (n : String) (hn : n ∈ names) :
    n ∈ exc ↔ ∃ m, m ∈ names ∧ m ≠ n ∧ getPostfix m = some n := by
  obtain ⟨-, hb, -, -⟩ := pass2_spec names pc m2 exc h2
  rw [hb, List.mem_filter]
  constructor
  · rintro ⟨-, hkey⟩
    rcases (pass1_hasKey names [] pc h1 n).mp hkey with hfalse | ⟨m, hm, hgp⟩
    · simp [hasKey, lookup] at hfalse
    · refine ⟨m, hm, fun e => ?_, hgp⟩
      have hlt := getPostfix_length_lt m n hgp
      rw [e] at hlt
      exact Nat.lt_irrefl _ hlt
  · rintro ⟨m, hm, -, hgp⟩
    exact ⟨hn, (pass1_hasKey names [] pc h1 n).mpr (Or.inr ⟨m, hm, hgp⟩)⟩

/-- Witness for C3 at the list ["a.com", "b.a.com"] and the name "a.com". -/
theorem exception_iff_tail_of_other_witness :
    ("a.com" ∈ (["a.com"] : List String)) ↔
      ∃ m, m ∈ (["a.com", "b.a.com"] : List String) ∧ m ≠ ("a.com") ∧
        getPostfix m = some ("a.com") :=
  exception_iff_tail_of_other ["a.com", "b.a.com"] [("com", 0), ("a.com", 0)]
    [("com", 0), ("a.com", 1)] ["a.com"] (by decide) (by decide) ("a.com") (by decide)

/-- The domain list of the claim: "a.com" together with 51 names of the
shape "bN.a.com". -/
def testNamesC1 : List String :=
  "a.com" :: (List.range 51).map (fun i => "b" ++ toString i ++ ".a.com")

/-- C1 counterexample: with "a.com" present verbatim and 51 names of shape
"*.a.com", the count of "a.com" after both passes is 51, not 0, and the
fragment for postfix "a.com" DOES appear in the assembled alternation
(while the verbatim name only gets a negative lookahead). -/
theorem frozen_count_counterexample :
    ((pass1 [] testNamesC1).bind (fun pc => (pass2 pc testNamesC1).map
        (fun r => lookup r.1 ("a.com")))) = some (some 51) ∧
    ((pass1 [] testNamesC1).bind (fun pc => (pass2 pc testNamesC1).map
        (fun r => garbageList r.1))) = some ([garbageFragment ("a.com")]) ∧
    generate_regex testNamesC1 = some ("(?!^a.com$)[a-zA-Z0-9\\-]+\\.a.com") := by
  decide

/-- C1 amended: a postfix p that itself appears verbatim in the list is
appended to the exceptions (so the exact name p is excluded by a negative
lookahead), but its count is NOT frozen: it ends at the number of names
whose postfix is p and that are not themselves keys of the seeded map, so
it can exceed the garbage threshold. -/
theorem verbatim_name_is_exception_but_counted (names : List String)
    (pc m2 : List (String × Nat)) (exc : List String) (p : String)
    (h1 : pass1 [] names = some pc) (h2 : pass2 pc names = some (m2, exc))
    (hp : p ∈ names) (hk : hasKey pc p = true) :
    p ∈ exc ∧
    lookup m2 p = some
      ((names.filter (fun n => !hasKey pc n && (getPostfix n == some p))).length) := by
  obtain ⟨-, hb, hc, -⟩ := pass2_spec names pc m2 exc h2
  constructor
  · rw [hb, List.mem_filter]
    exact ⟨hp, hk⟩
  · have hsome : (lookup pc p).isSome = true := hk
    obtain ⟨v, hv⟩ := Option.isSome_iff_exists.mp hsome
    have hz : v = 0 :=
      pass1_values_zero names [] pc h1 (by simp) (p, v) (lookup_eq_some_mem pc p v hv)
    rw [hc p, hv, hz]
    simp

/-- Witness for the amended C1 at the list ["a.com", "b.a.com"]. -/
theorem verbatim_name_is_exception_but_counted_witness :
    ("a.com" ∈ (["a.com"] : List String)) ∧
    lookup [("com", 0), ("a.com", 1)] ("a.com") = some
      (((["a.com", "b.a.com"] : List String).filter
        (fun n => !hasKey [("com", 0), ("a.com", 0)] n &&
          (getPostfix n == some ("a.com")))).length) :=
  verbatim_name_is_exception_but_counted ["a.com", "b.a.com"] [("com", 0), ("a.com", 0)]
    [("com", 0), ("a.com", 1)] ["a.com"] ("a.com") (by decide) (by decide) (by decide)
    (by decide)

/-! ### The driver -/

theorem mem_distinctAux (l : List Int) :
    ∀ seen x, x ∈ distinctAux seen l ↔ x ∈ l ∧ x ∉ seen := by
  induction l with
  | nil => intro seen x; simp [distinctAux]
  | cons p rest ih =>
    intro seen x
    by_cases hp : p ∈ seen
    · rw [show distinctAux seen (p :: rest) = distinctAux seen rest from by
        simp [distinctAux, hp]]
      rw [ih seen x]
      simp only [List.mem_cons]
      constructor
      · rintro ⟨hx1, hx2⟩
        exact ⟨Or.inr hx1, hx2⟩
      · rintro ⟨hx1 | hx1, hx2⟩
        · subst hx1
          exact absurd hp hx2
        · exact ⟨hx1, hx2⟩
    · rw [show distinctAux seen (p :: rest) = p :: distinctAux (p :: seen) rest from by
        simp [distinctAux, hp]]
      simp only [List.mem_cons, ih (p :: seen) x]
      constructor
      · rintro (hx1 | ⟨hx1, hx2⟩)
        · subst hx1
          exact ⟨Or.inl rfl, hp⟩
        · exact ⟨Or.inr hx1, fun hm => hx2 (Or.inr hm)⟩
      · rintro ⟨hx1 | hx1, hx2⟩
        · exact Or.inl hx1
        · by_cases hxp : x = p
          · exact Or.inl hxp
          · exact Or.inr ⟨hx1, by simp [List.mem_cons, hxp, hx2]⟩

theorem nodup_distinctAux (l : List Int) : ∀ seen, (distinctAux seen l).Nodup := by
  induction l with
  | nil => intro seen; simp [distinctAux]
  | cons p rest ih =>
    intro seen
    by_cases hp : p ∈ seen
    · simpa [distinctAux, hp] using ih seen
    · rw [show distinctAux seen (p :: rest) = p :: distinctAux (p :: seen) rest from by
        simp [distinctAux, hp]]
      refine List.Nodup.cons ?_ (ih (p :: seen))
      intro hmem
      exact ((mem_distinctAux rest (p :: seen) p).mp hmem).2 (List.mem_cons_self p seen)

theorem driverLoop_spec (rows : List (Int × String)) (l : List Int) :
    ∀ rs, driverLoop rows l = some rs →
      rs.map Rule.project_id = l ∧
      ∀ r ∈ rs, generate_regex (domainsOf rows r.project_id) = some r.regexp := by
  induction l with
  | nil =>
    intro rs h
    simp only [driverLoop, Option.some.injEq] at h
    subst h
    simp
  | cons pid rest ih =>
    intro rs h
    simp only [driverLoop] at h
    cases hg : generate_regex (domainsOf rows pid) with
    | none =>
      rw [hg] at h
      exact absurd h (by simp)
    | some re =>
      rw [hg] at h
      obtain ⟨rs2, hrs2, hmap⟩ := Option.map_eq_some'.mp h
      subst hmap
      obtain ⟨ha, hb⟩ := ih rs2 hrs2
      refine ⟨by simp [ha], ?_⟩
      intro r hr
      rcases List.mem_cons.mp hr with he | he
      · subst he
        simpa using hg
      · exact hb r he

/-- C7: the driver produces exactly one Rule per distinct project id in the
domains table — with that id and the regex generated from that project's
domain list — and none for an absent id. -/
theorem one_rule_per_project (rows : List (Int × String)) (rs : List Rule)
    (h : driver rows = some rs) (pid : Int) :
    (rs.filter (fun r => r.project_id == pid)).length =
      (if pid ∈ rows.map Prod.fst then 1 else 0) ∧
    ∀ r ∈ rs, generate_regex (domainsOf rows r.project_id) = some r.regexp := by
  obtain ⟨ha, hb⟩ := driverLoop_spec rows (distinctPids rows) rs h
  refine ⟨?_, hb⟩
  have hlen : (rs.filter (fun r => r.project_id == pid)).length =
      (rs.map Rule.project_id).count pid := by
    rw [List.count_eq_countP, List.countP_map, List.countP_eq_length_filter]
    rfl
  rw [hlen, ha]
  show (distinctAux [] (rows.map Prod.fst)).count pid = _
  by_cases hmem : pid ∈ rows.map Prod.fst
  · rw [if_pos hmem]
    exact List.count_eq_one_of_mem (nodup_distinctAux (rows.map Prod.fst) [])
      ((mem_distinctAux (rows.map Prod.fst) [] pid).mpr ⟨hmem, by simp⟩)
  · rw [if_neg hmem]
    refine List.count_eq_zero_of_not_mem ?_
    intro hmem2
    exact hmem ((mem_distinctAux (rows.map Prod.fst) [] pid).mp hmem2).1

/-- Witness for C7 at a one-row table. -/
theorem one_rule_per_project_witness :
    ((([Rule.mk 1 ("")] : List Rule).filter (fun r => r.project_id == (1 : Int))).length =
      (if (1 : Int) ∈ ([(1, "a.b")] : List (Int × String)).map Prod.fst then 1 else 0)) ∧
    ∀ r ∈ ([Rule.mk 1 ("")] : List Rule),
      generate_regex (domainsOf [(1, "a.b")] r.project_id) = some r.regexp :=
  one_rule_per_project [(1, "a.b")] [Rule.mk 1 ("")] (by decide) 1

end SfTest
